import Mathlib

/-!
Verification of the budget-flow graph pipeline of this repository against its
specification.  The TypeScript source is shallowly embedded: the link
validation of `src/components/SankeyChart.tsx` (self-loop / dangling-link
filtering and greedy cycle elimination by worklist DFS), the text-to-graph
extractor tail of `fetchCityBudget` in `src/services/geminiService.ts`, the
cache logic of `loadData` in `src/App.tsx`, and the per-city aggregation
`chartData` of `src/components/BudgetComparisonChart.tsx`.
-/

namespace BudgetViz

/-- A node of the flow graph (`SankeyNode` in `src/types.ts`). -/
structure SankeyNode where
  id : String
  name : String
  deriving DecidableEq, Repr

/-- A flow edge (`SankeyLink` in `src/types.ts`); `value` is in thousand yen. -/
structure SankeyLink where
  source : String
  target : String
  value : Int
  deriving DecidableEq, Repr

/-- The graph payload `SankeyData` in `src/types.ts`. -/
structure SankeyData where
  nodes : List SankeyNode
  links : List SankeyLink
  deriving DecidableEq, Repr

/-- One grounding citation (`sources` entries of `BudgetResponse` in `src/types.ts`). -/
structure Citation where
  title : String
  uri : String
  deriving DecidableEq, Repr

/-- The result record `BudgetResponse` in `src/types.ts`. -/
structure BudgetResponse where
  data : SankeyData
  explanation : String
  sources : List Citation
  deriving DecidableEq, Repr

/-! ## GraphValidator (`src/components/SankeyChart.tsx`) -/

/-- The `(source, target)` pairs of a list of links; the accepted links' pairs
are exactly the content of the `adj` map in `SankeyChart.tsx`. -/
def acceptedPairs (links : List SankeyLink) : List (String × String) :=
  links.map (fun l => (l.source, l.target))

/-- Forward neighbors of `v`: mirrors `adj.get(curr) || []`, since the map
entry of a node id accumulates, in acceptance order, the targets of the
accepted links having that node as source. -/
def neighborsOf (edges : List (String × String)) (v : String) : List String :=
  (edges.filter (fun e => e.fst == v)).map Prod.snd

/-- The worklist loop of `wouldCreateCycle` in `SankeyChart.tsx`: `stack` is
the LIFO worklist with its head as top (the JS array pops from the end, so
pushing the neighbor list appends it reversed here), `visited` the visited
set.  The JS `while` loop always terminates; here a `fuel` counter bounds the
iteration count, and `dfsFuel` below is shown to exceed the loop's iteration
count (see `dfsLoop_complete`: the potential `dfsPot` drops by one per
iteration, so a run started with `dfsPot < fuel` never exhausts its fuel). -/
def dfsLoop (edges : List (String × String)) (source : String) :
    Nat → List String → List String → Bool
  | 0, _, _ => false
  | _ + 1, [], _ => false
  | fuel + 1, curr :: rest, visited =>
    if curr = source then true
    else if visited.contains curr then
      dfsLoop edges source fuel rest visited
    else
      dfsLoop edges source fuel ((neighborsOf edges curr).reverse ++ rest)
        (curr :: visited)

/-- Fuel bound for `dfsLoop`: strictly more than the worst-case iteration
count `1 + edges.length` of the source's loop. -/
def dfsFuel (edges : List (String × String)) : Nat :=
  edges.length + 2

/-- The check `wouldCreateCycle(source, target)` from `SankeyChart.tsx`: DFS from
`target` along accepted edges, looking for `source`. -/
def wouldCreateCycle (edges : List (String × String)) (source target : String) : Bool :=
  dfsLoop edges source (dfsFuel edges) [target] []

/-- The body of `data.links.forEach` in `SankeyChart.tsx`: drop self-loops,
drop links with an endpoint outside the node-id set, drop cycle-forming
links, and append an accepted link to the accepted list (whose pairs form
the adjacency used by the DFS). -/
def validateStep (nodeIds : List String) (acc : List SankeyLink) (link : SankeyLink) :
    List SankeyLink :=
  if link.source = link.target then acc
  else if !(nodeIds.contains link.source) || !(nodeIds.contains link.target) then acc
  else if wouldCreateCycle (acceptedPairs acc) link.source link.target then acc
  else acc ++ [link]

/-- The validator: the candidate links are processed in order by
`validateStep` (the `forEach` of `SankeyChart.tsx`), starting from an empty
accepted list (`validLinks`). -/
def validateLinks (nodes : List SankeyNode) (links : List SankeyLink) :
    List SankeyLink :=
  links.foldl (validateStep (nodes.map SankeyNode.id)) []

/-! ## Reachability and acyclicity -/

/-- Reflexive-transitive reachability along directed edges. -/
inductive Path (E : List (String × String)) : String → String → Prop
  | refl (v : String) : Path E v v
  | step {a b c : String} : (a, b) ∈ E → Path E b c → Path E a c

/-- No nonempty closed walk: no edge `(a, b)` admits a return path `b → a`. -/
def Acyclic (E : List (String × String)) : Prop :=
  ∀ a b, (a, b) ∈ E → ¬ Path E b a

/-! ## Correctness of the worklist DFS -/

/-- Loop invariant for `dfsLoop`: the source was never visited, each visited
node has all of its forward neighbors visited or on the stack, and the start
node `target` is visited or on the stack. -/
def DfsInv (edges : List (String × String)) (source target : String)
    (stack visited : List String) : Prop :=
  source ∉ visited ∧
  (∀ v ∈ visited, ∀ w, (v, w) ∈ edges → w ∈ visited ∨ w ∈ stack) ∧
  (target ∈ visited ∨ target ∈ stack)

/-- Potential of a DFS configuration: stack size plus the number of edges
whose source is not yet visited.  It drops by exactly one per iteration. -/
def dfsPot (edges : List (String × String)) (stack visited : List String) : Nat :=
  stack.length + (edges.filter (fun e => !(visited.contains e.fst))).length

/-- Scenario A node set (`{rev_a, rev_b, exp_c}`). -/
def scenarioNodes : List SankeyNode :=
  [⟨"rev_a", "rev a"⟩, ⟨"rev_b", "rev b"⟩, ⟨"exp_c", "exp c"⟩]

/-- Scenario A candidate links, in the fixed order of the spec. -/
def scenarioLinks : List SankeyLink :=
  [⟨"rev_a", "exp_c", 100⟩, ⟨"rev_b", "exp_c", 50⟩, ⟨"exp_c", "rev_a", 999⟩]

/-! ## Idempotence of the validator -/

/-- A link list is a replay chain over `acc` when each of its links is
accepted by `validateStep` relative to the accumulated prefix. -/
inductive ReplayChain (nodeIds : List String) :
    List SankeyLink → List SankeyLink → Prop
  | nil (acc : List SankeyLink) : ReplayChain nodeIds acc []
  | cons {acc : List SankeyLink} {l : SankeyLink} {ds : List SankeyLink} :
      validateStep nodeIds acc l = acc ++ [l] →
      ReplayChain nodeIds (acc ++ [l]) ds →
      ReplayChain nodeIds acc (l :: ds)

/-! ## ResponseExtractor (`src/services/geminiService.ts`)

The text-processing tail of `fetchCityBudget`: locate the widest
brace-delimited substring, decode it as JSON, fill graph fields with
fallbacks, and filter dangling links before returning.  `JSON.parse` is a
platform builtin, so the extractor is parameterized over the decoder; a
concrete model decoder covering the JSON subset the claims exercise is
defined further below for concrete runs. -/

/-- Decoded JSON values. -/
inductive Json where
  | null
  | bool (b : Bool)
  | num (n : Int)
  | str (s : String)
  | arr (elems : List Json)
  | obj (fields : List (String × Json))

/-- JS truthiness of a JSON-decoded value (`undefined`, i.e. an absent field,
is handled at each use site): `null`, `false`, `0` and `""` are falsy; arrays
and objects are always truthy. -/
def jsTruthy : Json → Bool
  | Json.null => false
  | Json.bool b => b
  | Json.num n => !(n == 0)
  | Json.str s => !(s == "")
  | Json.arr _ => true
  | Json.obj _ => true

/-- Property access `parsed.name` on a decoded value: `none` models JS
`undefined`.  For duplicate keys the last binding wins, as in `JSON.parse`. -/
def getField : Json → String → Option Json
  | Json.obj fields, name => (fields.reverse.find? (fun f => f.fst == name)).map Prod.snd
  | _, _ => none

/-- Is the value a JSON array?  (The JS runtime only offers `.map`/`.filter`
on arrays; anything else makes those property calls throw.) -/
def jsonIsArr : Json → Bool
  | Json.arr _ => true
  | _ => false

/-- String-valued field access with a default, modeling JS property reads
whose `undefined` results are coerced by the surrounding string-typed
context.  (A non-string value in an id slot falls outside the `SankeyNode`
`/`SankeyLink` types and is modeled by the default as well.) -/
def jStrOr (j : Json) (name dflt : String) : String :=
  match getField j name with
  | some (Json.str s) => s
  | _ => dflt

/-- Numeric field access with a default, used for `value`. -/
def jIntOr (j : Json) (name : String) (dflt : Int) : Int :=
  match getField j name with
  | some (Json.num n) => n
  | _ => dflt

/-- One element of `parsed.nodes` as consumed downstream (`n.id`, `n.name`). -/
def decodeNode (j : Json) : SankeyNode :=
  ⟨jStrOr j "id" "", jStrOr j "name" ""⟩

/-- One element of `parsed.links` as consumed downstream. -/
def decodeLink (j : Json) : SankeyLink :=
  ⟨jStrOr j "source" "", jStrOr j "target" "", jIntOr j "value" 0⟩

/-- Opening brace, written via its code point. -/
def lbrace : Char := Char.ofNat 123

/-- Closing brace, written via its code point. -/
def rbrace : Char := Char.ofNat 125

/-- The greedy regex match of `geminiService.ts` (`text.match` of
brace–anything–brace): a match exists iff an opening brace occurs strictly
before some closing brace, and it spans from the first opening brace to the
last closing brace of the whole text.  Returns the matched substring and the
text with that first occurrence removed (`text.replace(jsonMatch[0], '')`). -/
def braceMatch (text : String) : Option (String × String) :=
  let cs := text.toList
  match cs.findIdx? (fun c => c == lbrace), cs.reverse.findIdx? (fun c => c == rbrace) with
  | some i, some rj =>
    let j := cs.length - 1 - rj
    if i < j then
      some (String.mk ((cs.drop i).take (j - i + 1)),
            String.mk (cs.take i ++ cs.drop (j + 1)))
    else none
  | _, _ => none

/-- JS `String.prototype.trim`: strip whitespace from both ends. -/
def jsTrim (s : String) : String :=
  String.mk (((s.toList.dropWhile Char.isWhitespace).reverse.dropWhile
    Char.isWhitespace).reverse)

/-- Model of `budgetData.nodes = parsed.nodes || []` (and likewise for `links`): an
absent or falsy field defaults to an empty array, a truthy field keeps its
raw value (which need not be an array). -/
def fieldOrEmptyArr (parsed : Json) (name : String) : Json :=
  match getField parsed name with
  | some v => if jsTruthy v then v else Json.arr []
  | none => Json.arr []

/-- Model of `explanation = parsed.explanation || fallback`: the declared type of
`explanation` is `string`, for which JS truthiness is non-emptiness; a
non-string value in this slot falls outside `BudgetResponse`'s type and is
modeled by the fallback. -/
def explanationOf (parsed : Json) (fallback : String) : String :=
  match getField parsed "explanation" with
  | some (Json.str s) => if s == "" then fallback else s
  | _ => fallback

/-- Diagnostic preamble of the `JSON.parse` failure branch. -/
def parseFailMsg : String :=
  "データの解析に失敗しました。以下はAIの回答テキストです：\n\n"

/-- Error value modeling the `TypeError` thrown by `.map`/`.filter` on a
truthy non-array `nodes`/`links` value (rethrown by the surrounding catch). -/
def typeErrorMsg : String := "TypeError: nodes/links is not an array"

/-- The decode-success branch: build `budgetData`, compute the explanation,
then run the referential-integrity filter (the `.map`/`.filter` calls after
the `if/else`, which throw when `nodes` or `links` is a truthy non-array). -/
def buildFromParsed (parsed : Json) (fallback : String)
    (citations : List Citation) : Except String BudgetResponse :=
  match fieldOrEmptyArr parsed "nodes", fieldOrEmptyArr parsed "links" with
  | Json.arr ns, Json.arr ls =>
    let nodes := ns.map decodeNode
    let nodeIds := nodes.map SankeyNode.id
    let links := (ls.map decodeLink).filter
      (fun l => nodeIds.contains l.source && nodeIds.contains l.target)
    Except.ok ⟨⟨nodes, links⟩, explanationOf parsed fallback, citations⟩
  | _, _ => Except.error typeErrorMsg

/-- The extractor tail of `fetchCityBudget`: no brace block means the whole
text becomes the explanation; decode failure keeps the diagnostic preamble
plus the raw text; decode success goes through `buildFromParsed`.  In the
first two branches `budgetData` is still the empty graph, so the final
filter is a no-op there.  `citations` models the grounding-chunk sources
already extracted from the transport response. -/
def fetchExtract (decode : String → Option Json) (text : String)
    (citations : List Citation) : Except String BudgetResponse :=
  match braceMatch text with
  | some (matched, outside) =>
    match decode matched with
    | some parsed => buildFromParsed parsed (jsTrim outside) citations
    | none => Except.ok ⟨⟨[], []⟩, parseFailMsg ++ text, citations⟩
  | none => Except.ok ⟨⟨[], []⟩, text, citations⟩

/-! ## A concrete model of the `JSON.parse` builtin

`JSON.parse` is an external platform builtin (not repository code).  The
recursive-descent decoder below models it over the JSON subset the claims
exercise: objects, arrays, strings with basic escapes, integer numbers and
the three literals.  It only instantiates the decoder parameter of
`fetchExtract` in concrete runs. -/

/-- Skip JSON whitespace. -/
def skipWs (cs : List Char) : List Char :=
  cs.dropWhile (fun c => c.isWhitespace)

/-- The double quote. -/
def quoteChar : Char := '"'

/-- The backslash. -/
def backslashChar : Char := '\\'

/-- Minimal escape interpretation inside string literals. -/
def escChar (c : Char) : Char :=
  if c == 'n' then '\n' else if c == 't' then '\t' else c

/-- Consume a string literal body up to its closing quote (the opening quote
is already consumed); `fuel` bounds the scan. -/
def strLitAux : Nat → List Char → List Char → Option (String × List Char)
  | 0, _, _ => none
  | _ + 1, _, [] => none
  | fuel + 1, acc, c :: rest =>
    if c == quoteChar then some (String.mk acc.reverse, rest)
    else if c == backslashChar then
      match rest with
      | [] => none
      | e :: rest2 => strLitAux fuel (escChar e :: acc) rest2
    else strLitAux fuel (c :: acc) rest

/-- Decimal digits to an integer. -/
def digitsToInt (ds : List Char) : Int :=
  ds.foldl (fun acc d => acc * 10 + Int.ofNat (d.toNat - 48)) 0

/-- An optionally signed integer literal (the JSON subset in use carries only
integer thousand-yen values). -/
def parseJNum (cs : List Char) : Option (Json × List Char) :=
  match cs with
  | c :: rest =>
    if c == '-' then
      let ds := rest.takeWhile (fun d => d.isDigit)
      if ds.isEmpty then none
      else some (Json.num (-(digitsToInt ds)), rest.drop ds.length)
    else
      let ds := cs.takeWhile (fun d => d.isDigit)
      if ds.isEmpty then none
      else some (Json.num (digitsToInt ds), cs.drop ds.length)
  | [] => none

mutual

/-- One JSON value. -/
def parseJVal : Nat → List Char → Option (Json × List Char)
  | 0, _ => none
  | fuel + 1, cs =>
    match skipWs cs with
    | [] => none
    | c :: rest =>
      if c == lbrace then
        match skipWs rest with
        | c2 :: rest2 =>
          if c2 == rbrace then some (Json.obj [], rest2)
          else parseJFields fuel (c2 :: rest2) []
        | [] => none
      else if c == '[' then
        match skipWs rest with
        | c2 :: rest2 =>
          if c2 == ']' then some (Json.arr [], rest2)
          else parseJElems fuel (c2 :: rest2) []
        | [] => none
      else if c == quoteChar then
        match strLitAux (rest.length + 1) [] rest with
        | some (s, rest2) => some (Json.str s, rest2)
        | none => none
      else if "true".toList.isPrefixOf (c :: rest) then
        some (Json.bool true, (c :: rest).drop 4)
      else if "false".toList.isPrefixOf (c :: rest) then
        some (Json.bool false, (c :: rest).drop 5)
      else if "null".toList.isPrefixOf (c :: rest) then
        some (Json.null, (c :: rest).drop 4)
      else parseJNum (c :: rest)

/-- The members of a nonempty object, up to and including its closing brace. -/
def parseJFields : Nat → List Char → List (String × Json) →
    Option (Json × List Char)
  | 0, _, _ => none
  | fuel + 1, cs, acc =>
    match skipWs cs with
    | c :: rest =>
      if c == quoteChar then
        match strLitAux (rest.length + 1) [] rest with
        | some (key, rest2) =>
          match skipWs rest2 with
          | c2 :: rest3 =>
            if c2 == ':' then
              match parseJVal fuel rest3 with
              | some (v, rest4) =>
                match skipWs rest4 with
                | c3 :: rest5 =>
                  if c3 == ',' then parseJFields fuel rest5 (acc ++ [(key, v)])
                  else if c3 == rbrace then
                    some (Json.obj (acc ++ [(key, v)]), rest5)
                  else none
                | [] => none
              | none => none
            else none
          | [] => none
        | none => none
      else none
    | [] => none

/-- The elements of a nonempty array, up to and including its closing
bracket. -/
def parseJElems : Nat → List Char → List Json → Option (Json × List Char)
  | 0, _, _ => none
  | fuel + 1, cs, acc =>
    match parseJVal fuel cs with
    | some (v, rest) =>
      match skipWs rest with
      | c :: rest2 =>
        if c == ',' then parseJElems fuel rest2 (acc ++ [v])
        else if c == ']' then some (Json.arr (acc ++ [v]), rest2)
        else none
      | [] => none
    | none => none

end

/-- The model decoder: a whole-string JSON parse, rejecting trailing
non-whitespace just as `JSON.parse` does. -/
def jsonDecode (s : String) : Option Json :=
  match parseJVal (s.toList.length + 1) s.toList with
  | some (j, rest) => if (skipWs rest).isEmpty then some j else none
  | none => none

/-- Input with a single self-loop link, for the second half of C10. -/
def selfLoopText : String :=
  "\x7b\"nodes\":[\x7b\"id\":\"a\",\"name\":\"A\"\x7d],\"links\":[\x7b\"source\":\"a\",\"target\":\"a\",\"value\":1\x7d]\x7d"

/-! ## CacheStore (`loadData` in `src/App.tsx`)

The cache maps a city key to a stored response plus timestamp.  `loadData`
is modeled as a state transition: the fetcher outcome is passed as a value
(`.ok` models `fetchCityBudget` resolving, `.error` rejecting), `ts` models
`Date.now()`, and `invoked` records whether the fetcher was awaited at all.
The error surfaces into the result's `error` field (the `setError` state the
caller reads), and the cache update is the functional spread
`{...prev, [city]: {...result, timestamp}}`. -/

/-- A cache entry (`BudgetResponse & { timestamp: number }`). -/
structure CachedEntry where
  response : BudgetResponse
  timestamp : Nat
  deriving DecidableEq, Repr

/-- The error state set by the catch branch of `loadData`. -/
structure LoadError where
  message : String
  isQuota : Bool
  deriving DecidableEq, Repr

/-- Substring containment, modeling JS `String.prototype.includes`. -/
def containsSub (needle : List Char) : List Char → Bool
  | [] => needle.isEmpty
  | c :: t => needle.isPrefixOf (c :: t) || containsSub needle t

/-- JS `haystack.includes(needle)`. -/
def strIncludes (s sub : String) : Bool :=
  containsSub sub.toList s.toList

/-- The error state built in `loadData`'s catch branch: quota-style messages
(containing `429` or `quota`) get the quota text, everything else the
per-city generic text. -/
def loadErrorFor (city e : String) : LoadError :=
  let isQuota := strIncludes e "429" || strIncludes e "quota"
  if isQuota then
    ⟨"APIの利用制限に達しました。無料枠の上限を超えたため、数分待ってから再度お試しください。", true⟩
  else
    ⟨city ++ "のデータ取得中にエラーが発生しました。時間を置いて再度お試しください。", false⟩

/-- Outcome of one `loadData` call. -/
structure LoadResult where
  cache : String → Option CachedEntry
  error : Option LoadError
  invoked : Bool

/-- The transition `loadData(city, force)` from `src/App.tsx`: an early return when the key
is cached and `force` is off; otherwise the fetcher runs, and its success
overwrites the one key while its failure leaves the cache untouched and
surfaces an error state. -/
def loadData (cache : String → Option CachedEntry) (city : String)
    (fetcher : Except String BudgetResponse) (ts : Nat) (force : Bool) :
    LoadResult :=
  if !force && (cache city).isSome then ⟨cache, none, false⟩
  else
    match fetcher with
    | Except.ok result =>
      ⟨fun k => if k = city then some ⟨result, ts⟩ else cache k, none, true⟩
    | Except.error e => ⟨cache, some (loadErrorFor city e), true⟩

/-- Empty initial cache. -/
def emptyCache : String → Option CachedEntry := fun _ => none

/-- A small concrete response for cache runs. -/
def sampleResponse : BudgetResponse := ⟨⟨[], []⟩, "ok", []⟩

/-! ## AggregationEngine (`chartData` in `src/components/BudgetComparisonChart.tsx`) -/

/-- One funding-source bucket (`{name, value}`). -/
structure CategoryEntry where
  name : String
  value : Int
  deriving DecidableEq, Repr

/-- One city's aggregation (`{city, total, categories}`). -/
structure CityAgg where
  city : String
  total : Int
  categories : List CategoryEntry
  deriving DecidableEq, Repr

/-- JS `link.source.startsWith('rev_')`. -/
def hasRevTierId (s : String) : Bool :=
  match s.toList with
  | 'r' :: 'e' :: 'v' :: '_' :: _ => true
  | _ => false

/-- Bucket label: the name of the source node, `その他財源` when the node is
missing (`data.data.nodes.find(...)` miss). -/
def sourceNameFor (nodes : List SankeyNode) (src : String) : String :=
  match nodes.find? (fun n => n.id == src) with
  | some n => n.name
  | none => "その他財源"

/-- Model of `Map.set(name, (map.get(name) || 0) + link.value)` on an
insertion-ordered association list, matching JS `Map` iteration order. -/
def mapInc (m : List (String × Int)) (name : String) (v : Int) :
    List (String × Int) :=
  match m with
  | [] => [(name, v)]
  | (k, w) :: rest =>
    if k = name then (k, w + v) :: rest else (k, w) :: mapInc rest name v

/-- The body of `data.data.links.forEach`: only links whose source id carries
the funding-source prefix contribute, keyed by the source node's name. -/
def aggStep (nodes : List SankeyNode) (m : List (String × Int))
    (link : SankeyLink) : List (String × Int) :=
  if hasRevTierId link.source then
    mapInc m (sourceNameFor nodes link.source) link.value
  else m

/-- The bucket list of one cached entry
(`Array.from(categoryMap.entries()).map(...)`). -/
def aggCategories (entry : CachedEntry) : List CategoryEntry :=
  (entry.response.data.links.foldl (aggStep entry.response.data.nodes) []).map
    (fun p => CategoryEntry.mk p.fst p.snd)

/-- The per-city body of `chartData`'s `cities.map`: a missing cache entry
aggregates to total `0` with no buckets; otherwise buckets are built from the
funding-source links and the total reduces over the bucket values. -/
def chartDataFor (cache : String → Option CachedEntry) (city : String) :
    CityAgg :=
  match cache city with
  | none => ⟨city, 0, []⟩
  | some entry =>
    ⟨city,
     (aggCategories entry).foldl (fun s c => s + c.value) 0,
     aggCategories entry⟩

/-- Stable descending insertion by total, modeling the final
`.sort((a, b) => b.total - a.total)` (JS `Array.prototype.sort` is stable). -/
def insertByTotal (x : CityAgg) : List CityAgg → List CityAgg
  | [] => [x]
  | y :: t => if y.total < x.total then x :: y :: t else y :: insertByTotal x t

/-- The full `chartData` memo: per-city aggregation over the fixed city list,
sorted by total descending. -/
def chartData (cache : String → Option CachedEntry) (cities : List String) :
    List CityAgg :=
  (cities.map (chartDataFor cache)).foldr insertByTotal []

/-- Total value held in an association map. -/
def mapSum (m : List (String × Int)) : Int :=
  (m.map Prod.snd).sum

/-- A concrete cached entry with one funding-source link and one non-funding
link, for the C9 witness. -/
def sampleEntry : CachedEntry :=
  ⟨⟨⟨[⟨"rev_x", "X"⟩, ⟨"exp_y", "Y"⟩],
     [⟨"rev_x", "exp_y", 70⟩, ⟨"exp_y", "item_z", 30⟩]⟩, "", []⟩, 1⟩

/-- A concrete one-entry cache for the C9 witness. -/
def sampleCache : String → Option CachedEntry :=
  fun k => if k = "世田谷区" then some sampleEntry else none


theorem path_trans {E : List (String × String)} {x y z : String}
    (h1 : Path E x y) (h2 : Path E y z) : Path E x z := by
  induction h1 with
  | refl v => exact h2
  | step hab _ ih => exact Path.step hab (ih h2)

theorem path_snoc {E : List (String × String)} {x y z : String}
    (hxy : Path E x y) (hyz : (y, z) ∈ E) : Path E x z :=
  path_trans hxy (Path.step hyz (Path.refl z))

theorem path_mono {E F : List (String × String)} (hEF : ∀ e ∈ E, e ∈ F)
    {x y : String} (h : Path E x y) : Path F x y := by
  induction h with
  | refl v => exact Path.refl v
  | step hab _ ih => exact Path.step (hEF _ hab) ih

/-- Decomposing a path that may use the freshly added edge `(s, t)`, under the
assumption that `t` cannot already reach `s`. -/
theorem path_cons_cases {E : List (String × String)} {s t : String}
    (hts : ¬ Path E t s) {x y : String} (h : Path ((s, t) :: E) x y) :
    Path E x y ∨ (Path E x s ∧ Path E t y) := by
  induction h with
  | refl v => exact Or.inl (Path.refl v)
  | step hab _ ih =>
    rcases List.mem_cons.mp hab with heq | hmem
    · injection heq with h1 h2
      rw [h1]
      rw [h2] at ih
      rcases ih with hEby | ⟨hbs, _⟩
      · exact Or.inr ⟨Path.refl s, hEby⟩
      · exact absurd hbs hts
    · rcases ih with hEby | ⟨hbs, hty⟩
      · exact Or.inl (Path.step hmem hEby)
      · exact Or.inr ⟨Path.step hmem hbs, hty⟩

/-- Adding an edge `(s, t)` whose target cannot reach its source preserves
acyclicity. -/
theorem acyclic_cons {E : List (String × String)} {s t : String}
    (hE : Acyclic E) (hts : ¬ Path E t s) : Acyclic ((s, t) :: E) := by
  intro a b hab hba
  rcases List.mem_cons.mp hab with heq | hmem
  · injection heq with h1 h2
    subst h1; subst h2
    rcases path_cons_cases hts hba with h | ⟨hts', _⟩
    · exact hts h
    · exact hts hts'
  · rcases path_cons_cases hts hba with h | ⟨hbs, hta⟩
    · exact hE a b hmem h
    · exact hts (path_trans (path_snoc hta hmem) hbs)

/-- Acyclicity only depends on the membership of the edge list. -/
theorem acyclic_of_mem_iff {E F : List (String × String)}
    (h : ∀ e, e ∈ E ↔ e ∈ F) (hE : Acyclic E) : Acyclic F := by
  intro a b hab hba
  exact hE a b ((h _).mpr hab) (path_mono (fun e he => (h e).mpr he) hba)

theorem mem_neighborsOf {E : List (String × String)} {a b : String} :
    b ∈ neighborsOf E a ↔ (a, b) ∈ E := by
  constructor
  · intro h
    simp only [neighborsOf, List.mem_map, List.mem_filter, beq_iff_eq] at h
    obtain ⟨e, ⟨he, hfst⟩, hsnd⟩ := h
    have : e = (a, b) := by
      cases e; simp_all
    exact this ▸ he
  · intro h
    simp only [neighborsOf, List.mem_map, List.mem_filter, beq_iff_eq]
    exact ⟨(a, b), ⟨h, rfl⟩, rfl⟩

/-- Splitting a filtered count along a sub-predicate `p` of `q`. -/
theorem length_filter_split {α : Type} (p q : α → Bool) (l : List α)
    (h : ∀ a, p a = true → q a = true) :
    (l.filter (fun a => q a && !(p a))).length + (l.filter p).length
      = (l.filter q).length := by
  induction l with
  | nil => rfl
  | cons a l ih =>
    rcases hp : p a with _ | _
    · rcases hq : q a with _ | _
      · simp [List.filter_cons, hp, hq]
        omega
      · simp [List.filter_cons, hp, hq]
        omega
    · have hq : q a = true := h a hp
      simp [List.filter_cons, hp, hq]
      omega

theorem dfsPot_insert (edges : List (String × String)) (curr : String)
    (visited : List String) (h : curr ∉ visited) :
    (edges.filter (fun e => !((curr :: visited).contains e.fst))).length
      + (neighborsOf edges curr).length
    = (edges.filter (fun e => !(visited.contains e.fst))).length := by
  have hfun : (fun e : String × String => !((curr :: visited).contains e.fst))
      = (fun e : String × String =>
          (!(visited.contains e.fst)) && !(e.fst == curr)) := by
    funext e
    rw [List.contains_cons]
    cases hb : (e.fst == curr) <;> cases hv : visited.contains e.fst <;> rfl
  rw [hfun, neighborsOf, List.length_map]
  apply length_filter_split (fun e : String × String => e.fst == curr)
    (fun e : String × String => !(visited.contains e.fst)) edges
  intro a ha
  have hac : a.fst = curr := beq_iff_eq.mp ha
  rw [hac]
  rcases hc : visited.contains curr with _ | _
  · rfl
  · exact absurd (List.elem_iff.mp hc) h

/-- Definitional unrolling of one `dfsLoop` iteration. -/
theorem dfsLoop_cons (edges : List (String × String)) (source : String)
    (fuel : Nat) (curr : String) (rest visited : List String) :
    dfsLoop edges source (fuel + 1) (curr :: rest) visited =
      if curr = source then true
      else if visited.contains curr then dfsLoop edges source fuel rest visited
      else dfsLoop edges source fuel ((neighborsOf edges curr).reverse ++ rest)
        (curr :: visited) := rfl

/-- Completeness of the worklist DFS: if a run whose fuel exceeds the
potential of its starting configuration, and whose configuration satisfies
the invariant, returns `false`, then `source` is not reachable from `target`
along `edges`. -/
theorem dfsLoop_complete (edges : List (String × String)) (source target : String) :
    ∀ fuel stack visited,
      dfsPot edges stack visited < fuel →
      DfsInv edges source target stack visited →
      dfsLoop edges source fuel stack visited = false →
      ¬ Path edges target source := by
  intro fuel
  induction fuel with
  | zero => intro stack visited hpot; omega
  | succ fuel ih =>
    intro stack visited hpot hinv hrun
    match stack with
    | [] =>
      obtain ⟨hs, hcl, ht⟩ := hinv
      have ht' : target ∈ visited := by
        rcases ht with h | h
        · exact h
        · simp at h
      intro hpath
      have closed : ∀ x y, Path edges x y → x ∈ visited → y ∈ visited := by
        intro x y hp
        induction hp with
        | refl v => exact id
        | step hab _ ih2 =>
          intro hx
          rcases hcl _ hx _ hab with hv | hv
          · exact ih2 hv
          · simp at hv
      exact hs (closed _ _ hpath ht')
    | curr :: rest =>
      obtain ⟨hs, hcl, ht⟩ := hinv
      by_cases hcs : curr = source
      · rw [dfsLoop_cons, if_pos hcs] at hrun
        exact Bool.noConfusion hrun
      · rcases hv : visited.contains curr with _ | _
        · -- curr not yet visited: expand it
          have hv' : curr ∉ visited := fun hmem => by
            have h2 : visited.contains curr = true := List.elem_iff.mpr hmem
            rw [hv] at h2
            exact Bool.false_ne_true h2
          rw [dfsLoop_cons, if_neg hcs,
            if_neg (fun hh => Bool.false_ne_true (hv ▸ hh))] at hrun
          apply ih ((neighborsOf edges curr).reverse ++ rest) (curr :: visited)
          · -- potential decreases
            have := dfsPot_insert edges curr visited hv'
            simp only [dfsPot, List.length_append, List.length_reverse,
              List.length_cons] at hpot ⊢
            omega
          · refine ⟨?_, ?_, ?_⟩
            · intro hmem
              rcases List.mem_cons.mp hmem with h | h
              · exact hcs h.symm
              · exact hs h
            · intro v hvmem w hw
              rcases List.mem_cons.mp hvmem with hveq | hvold
              · subst hveq
                right
                rw [List.mem_append, List.mem_reverse]
                exact Or.inl (mem_neighborsOf.mpr hw)
              · rcases hcl v hvold w hw with h | h
                · exact Or.inl (List.mem_cons_of_mem _ h)
                · rcases List.mem_cons.mp h with h2 | h2
                  · exact Or.inl (h2 ▸ List.mem_cons_self _ _)
                  · exact Or.inr (List.mem_append.mpr (Or.inr h2))
            · rcases ht with h | h
              · exact Or.inl (List.mem_cons_of_mem _ h)
              · rcases List.mem_cons.mp h with h2 | h2
                · exact Or.inl (h2 ▸ List.mem_cons_self _ _)
                · exact Or.inr (List.mem_append.mpr (Or.inr h2))
          · exact hrun
        · -- curr already visited: just pop it
          rw [dfsLoop_cons, if_neg hcs, if_pos hv] at hrun
          have hv' : curr ∈ visited := List.elem_iff.mp hv
          apply ih rest visited
          · simp only [dfsPot, List.length_cons] at hpot ⊢
            omega
          · refine ⟨hs, ?_, ?_⟩
            · intro v hvmem w hw
              rcases hcl v hvmem w hw with h | h
              · exact Or.inl h
              · rcases List.mem_cons.mp h with h2 | h2
                · exact Or.inl (h2 ▸ hv')
                · exact Or.inr h2
            · rcases ht with h | h
              · exact Or.inl h
              · rcases List.mem_cons.mp h with h2 | h2
                · exact Or.inl (h2 ▸ hv')
                · exact Or.inr h2
          · exact hrun

/-- A negative `wouldCreateCycle` answer really does mean "no path from
`target` back to `source` along the accepted edges". -/
theorem wouldCreateCycle_false_no_path {edges : List (String × String)}
    {s t : String} (h : wouldCreateCycle edges s t = false) :
    ¬ Path edges t s := by
  apply dfsLoop_complete edges s t (dfsFuel edges) [t] []
  · have hall : (edges.filter (fun e => !(([] : List String).contains e.fst))) = edges := by
      apply List.filter_eq_self.mpr
      intro e _
      rfl
    unfold dfsPot dfsFuel
    rw [hall]
    simp only [List.length_cons, List.length_nil]
    omega
  · refine ⟨by simp, by simp, Or.inr (by simp)⟩
  · exact h

/-! ## Behavior of one validation step -/

/-- Each candidate is either rejected (accumulator unchanged) or accepted and
appended; acceptance certifies all three checks of the `forEach` body. -/
theorem validateStep_cases (nodeIds : List String) (acc : List SankeyLink)
    (link : SankeyLink) :
    validateStep nodeIds acc link = acc ∨
    (validateStep nodeIds acc link = acc ++ [link] ∧
      link.source ≠ link.target ∧
      link.source ∈ nodeIds ∧ link.target ∈ nodeIds ∧
      wouldCreateCycle (acceptedPairs acc) link.source link.target = false) := by
  unfold validateStep
  by_cases h1 : link.source = link.target
  · rw [if_pos h1]
    exact Or.inl rfl
  · rw [if_neg h1]
    rcases h2 : (!(nodeIds.contains link.source) || !(nodeIds.contains link.target))
      with _ | _
    · rw [if_neg Bool.false_ne_true]
      obtain ⟨hsrc, htgt⟩ := Bool.or_eq_false_iff.mp h2
      have hsrc' : link.source ∈ nodeIds := by
        rcases hx : nodeIds.contains link.source with _ | _
        · rw [hx] at hsrc
          simp at hsrc
        · exact List.elem_iff.mp hx
      have htgt' : link.target ∈ nodeIds := by
        rcases hx : nodeIds.contains link.target with _ | _
        · rw [hx] at htgt
          simp at htgt
        · exact List.elem_iff.mp hx
      rcases h3 : wouldCreateCycle (acceptedPairs acc) link.source link.target
        with _ | _
      · rw [if_neg Bool.false_ne_true]
        exact Or.inr ⟨rfl, h1, hsrc', htgt', rfl⟩
      · rw [if_pos rfl]
        exact Or.inl rfl
    · rw [if_pos rfl]
      exact Or.inl rfl

/-- Folding the candidates preserves acyclicity of the accepted pairs. -/
theorem validate_acc_acyclic (nodeIds : List String) :
    ∀ (links acc : List SankeyLink),
      Acyclic (acceptedPairs acc) →
      Acyclic (acceptedPairs (links.foldl (validateStep nodeIds) acc)) := by
  intro links
  induction links with
  | nil => intro acc h; exact h
  | cons l ls ih =>
    intro acc h
    rw [List.foldl_cons]
    rcases validateStep_cases nodeIds acc l with hr | ⟨ha, _, _, _, hcyc⟩
    · rw [hr]
      exact ih acc h
    · rw [ha]
      apply ih
      have hnp : ¬ Path (acceptedPairs acc) l.target l.source :=
        wouldCreateCycle_false_no_path hcyc
      have hmm : ∀ e, e ∈ (l.source, l.target) :: acceptedPairs acc ↔
          e ∈ acceptedPairs (acc ++ [l]) := by
        intro e
        simp [acceptedPairs, or_comm]
      exact acyclic_of_mem_iff hmm (acyclic_cons h hnp)

/-- C1: for every node set and candidate link list, the accepted output links
of the validator form an acyclic directed graph — no sequence of accepted
links forms a cycle, because a candidate `(s, t)` is only accepted when the
DFS finds no path from `t` back to `s` among already-accepted links. -/
theorem validator_output_acyclic (nodes : List SankeyNode)
    (links : List SankeyLink) :
    Acyclic (acceptedPairs (validateLinks nodes links)) := by
  unfold validateLinks
  apply validate_acc_acyclic
  intro a b hab
  simp [acceptedPairs] at hab

/-- Witness for C1 at Scenario A: the accepted edge `(rev_a, exp_c)` has no
return path, by the acyclicity theorem applied at a concrete input. -/
theorem validator_output_acyclic_witness :
    ¬ Path (acceptedPairs (validateLinks scenarioNodes scenarioLinks))
      "exp_c" "rev_a" :=
  validator_output_acyclic scenarioNodes scenarioLinks "rev_a" "exp_c" (by decide)

/-- C2: on Scenario A — nodes `{rev_a, rev_b, exp_c}`, candidates
`[(rev_a,exp_c,100), (rev_b,exp_c,50), (exp_c,rev_a,999)]` in that order —
the validator's output is exactly the first two links; the third is discarded
as cycle-forming. -/
theorem scenarioA_validated :
    validateLinks scenarioNodes scenarioLinks =
      [⟨"rev_a", "exp_c", 100⟩, ⟨"rev_b", "exp_c", 50⟩] := by decide

/-- Folding the candidates preserves well-formedness of every accepted link. -/
theorem validate_acc_wellformed (nodeIds : List String) :
    ∀ (links acc : List SankeyLink),
      (∀ l ∈ acc, l.source ≠ l.target ∧ l.source ∈ nodeIds ∧ l.target ∈ nodeIds) →
      ∀ l ∈ links.foldl (validateStep nodeIds) acc,
        l.source ≠ l.target ∧ l.source ∈ nodeIds ∧ l.target ∈ nodeIds := by
  intro links
  induction links with
  | nil => intro acc h; exact h
  | cons l ls ih =>
    intro acc h
    rw [List.foldl_cons]
    rcases validateStep_cases nodeIds acc l with hr | ⟨ha, hne, hsrc, htgt, _⟩
    · rw [hr]
      exact ih acc h
    · rw [ha]
      apply ih
      intro x hx
      rcases List.mem_append.mp hx with hold | hnew
      · exact h x hold
      · rcases List.mem_cons.mp hnew with heq | habs
        · rw [heq]
          exact ⟨hne, hsrc, htgt⟩
        · simp at habs

/-- C3: every link in the validator's output has distinct endpoints (no
self-loop) and both endpoint ids belong to the node set (no dangling
reference). -/
theorem validator_output_wellformed (nodes : List SankeyNode)
    (links : List SankeyLink) :
    ∀ l ∈ validateLinks nodes links,
      l.source ≠ l.target ∧
      l.source ∈ nodes.map SankeyNode.id ∧
      l.target ∈ nodes.map SankeyNode.id := by
  unfold validateLinks
  apply validate_acc_wellformed
  intro l hl
  simp at hl

/-- Witness for C3, at the first accepted link of Scenario A. -/
theorem validator_output_wellformed_witness :
    ("rev_a" : String) ≠ "exp_c" ∧
      ("rev_a" : String) ∈ scenarioNodes.map SankeyNode.id ∧
      ("exp_c" : String) ∈ scenarioNodes.map SankeyNode.id :=
  validator_output_wellformed scenarioNodes scenarioLinks
    ⟨"rev_a", "exp_c", 100⟩ (by decide)

/-- The fold of the validator appends a replay chain to its accumulator. -/
theorem foldl_replay (nodeIds : List String) :
    ∀ (links acc : List SankeyLink), ∃ ds,
      links.foldl (validateStep nodeIds) acc = acc ++ ds ∧
      ReplayChain nodeIds acc ds := by
  intro links
  induction links with
  | nil => intro acc; exact ⟨[], by simp, ReplayChain.nil acc⟩
  | cons l ls ih =>
    intro acc
    rw [List.foldl_cons]
    rcases validateStep_cases nodeIds acc l with hr | ⟨ha, _⟩
    · rw [hr]
      exact ih acc
    · rw [ha]
      obtain ⟨ds, heq, hch⟩ := ih (acc ++ [l])
      refine ⟨l :: ds, ?_, ReplayChain.cons ha hch⟩
      rw [heq]
      simp

/-- Replaying a chain reproduces it unchanged. -/
theorem replay_foldl (nodeIds : List String) (acc ds : List SankeyLink)
    (h : ReplayChain nodeIds acc ds) :
    ds.foldl (validateStep nodeIds) acc = acc ++ ds := by
  induction h with
  | nil acc => simp
  | cons hstep _ ih =>
    rw [List.foldl_cons, hstep, ih]
    simp

/-- C4: the validator is idempotent — running it again on its own output,
with the same node set, returns that output unchanged, link for link in the
same order. -/
theorem validator_idempotent (nodes : List SankeyNode)
    (links : List SankeyLink) :
    validateLinks nodes (validateLinks nodes links) =
      validateLinks nodes links := by
  unfold validateLinks
  obtain ⟨ds, heq, hch⟩ := foldl_replay (nodes.map SankeyNode.id) links []
  have h2 := replay_foldl (nodes.map SankeyNode.id) [] ds hch
  rw [List.nil_append] at heq h2
  rw [heq, h2]

/-! ## Extractor theorems -/

theorem buildFromParsed_sources (parsed : Json) (fallback : String)
    (cites : List Citation) (r : BudgetResponse)
    (h : buildFromParsed parsed fallback cites = Except.ok r) :
    r.sources = cites := by
  unfold buildFromParsed at h
  cases hA : fieldOrEmptyArr parsed "nodes" <;> rw [hA] at h <;>
    cases hB : fieldOrEmptyArr parsed "links" <;> rw [hB] at h <;>
    cases h <;> rfl

theorem buildFromParsed_error (parsed : Json) (fallback : String)
    (cites : List Citation) (e : String)
    (h : buildFromParsed parsed fallback cites = Except.error e) :
    jsonIsArr (fieldOrEmptyArr parsed "nodes") = false ∨
    jsonIsArr (fieldOrEmptyArr parsed "links") = false := by
  unfold buildFromParsed at h
  cases hA : fieldOrEmptyArr parsed "nodes" <;> rw [hA] at h <;>
    cases hB : fieldOrEmptyArr parsed "links" <;> rw [hB] at h <;>
    first
      | exact Or.inl rfl
      | exact Or.inr rfl
      | cases h

/-- C5 counterexample: the extractor does raise on some input text.  On
`{"nodes":5}` the decode succeeds with a truthy non-array `nodes` value, so
the later `budgetData.nodes.map(...)` throws a `TypeError`, which the
surrounding catch rethrows. -/
theorem extractor_raises_on_nonarray :
    fetchExtract jsonDecode "\x7b\"nodes\":5\x7d" [] =
      Except.error typeErrorMsg := by rfl

/-- C5 (amended): the extractor never raises except when the decoded payload
carries a truthy non-array `nodes` or `links` field; with no brace-delimited
block it returns the empty graph with the original text as explanation; on
decode failure it returns the empty graph with a diagnostic explanation
embedding the raw text; and citations are passed through in every returned
result. -/
theorem extractor_degrades (decode : String → Option Json) (text : String)
    (cites : List Citation) :
    (braceMatch text = none →
      fetchExtract decode text cites = Except.ok ⟨⟨[], []⟩, text, cites⟩) ∧
    (∀ m o, braceMatch text = some (m, o) → decode m = none →
      fetchExtract decode text cites =
        Except.ok ⟨⟨[], []⟩, parseFailMsg ++ text, cites⟩) ∧
    (∀ r, fetchExtract decode text cites = Except.ok r → r.sources = cites) ∧
    (∀ e, fetchExtract decode text cites = Except.error e →
      ∃ m o parsed, braceMatch text = some (m, o) ∧ decode m = some parsed ∧
        (jsonIsArr (fieldOrEmptyArr parsed "nodes") = false ∨
         jsonIsArr (fieldOrEmptyArr parsed "links") = false)) := by
  refine ⟨?_, ?_, ?_, ?_⟩
  · intro h
    simp only [fetchExtract, h]
  · intro m o h1 h2
    simp only [fetchExtract, h1, h2]
  · intro r h
    unfold fetchExtract at h
    rcases hbm : braceMatch text with _ | ⟨m, o⟩ <;> rw [hbm] at h
    · injection h with h2
      rw [← h2]
    · have h' : (match decode m with
          | some parsed => buildFromParsed parsed (jsTrim o) cites
          | none => Except.ok
              (⟨⟨[], []⟩, parseFailMsg ++ text, cites⟩ : BudgetResponse))
          = Except.ok r := h
      rcases hd : decode m with _ | parsed <;> rw [hd] at h'
      · injection h' with h2
        rw [← h2]
      · exact buildFromParsed_sources parsed (jsTrim o) cites r h'
  · intro e h
    unfold fetchExtract at h
    rcases hbm : braceMatch text with _ | ⟨m, o⟩ <;> rw [hbm] at h
    · cases h
    · have h' : (match decode m with
          | some parsed => buildFromParsed parsed (jsTrim o) cites
          | none => Except.ok
              (⟨⟨[], []⟩, parseFailMsg ++ text, cites⟩ : BudgetResponse))
          = Except.error e := h
      rcases hd : decode m with _ | parsed <;> rw [hd] at h'
      · cases h'
      · exact ⟨m, o, parsed, rfl, hd,
          buildFromParsed_error parsed (jsTrim o) cites e h'⟩

/-- Witness for the amended C5, at concrete inputs for both degradation
branches (a brace-free text, and a matched block the decoder rejects). -/
theorem extractor_degrades_witness :
    fetchExtract jsonDecode "no payload here" [⟨"t", "u"⟩] =
      Except.ok ⟨⟨[], []⟩, "no payload here", [⟨"t", "u"⟩]⟩ ∧
    fetchExtract jsonDecode "\x7bbad\x7d" [] =
      Except.ok ⟨⟨[], []⟩, parseFailMsg ++ "\x7bbad\x7d", []⟩ :=
  ⟨(extractor_degrades jsonDecode "no payload here" [⟨"t", "u"⟩]).1 (by rfl),
   (extractor_degrades jsonDecode "\x7bbad\x7d" []).2.1
     "\x7bbad\x7d" "" (by rfl) (by rfl)⟩

/-- C6: a payload that decodes but has no `nodes`, `links` or `explanation`
fields (such as `{"foo":1}`) yields the empty graph — the defaults — and an
explanation built from the text outside the matched substring. -/
theorem extractor_empty_shape (decode : String → Option Json)
    (text m o : String) (cites : List Citation) (parsed : Json)
    (h1 : braceMatch text = some (m, o))
    (h2 : decode m = some parsed)
    (h3 : getField parsed "nodes" = none)
    (h4 : getField parsed "links" = none)
    (h5 : getField parsed "explanation" = none) :
    fetchExtract decode text cites =
      Except.ok ⟨⟨[], []⟩, jsTrim o, cites⟩ := by
  simp only [fetchExtract, h1, h2, buildFromParsed, fieldOrEmptyArr, h3, h4,
    explanationOf, h5]
  rfl

/-- Witness for C6 at the concrete Scenario C input, with surrounding prose. -/
theorem extractor_empty_shape_witness :
    fetchExtract jsonDecode "See: \x7b\"foo\":1\x7d done" [⟨"s", "u"⟩] =
      Except.ok ⟨⟨[], []⟩, jsTrim "See:  done", [⟨"s", "u"⟩]⟩ :=
  extractor_empty_shape jsonDecode "See: \x7b\"foo\":1\x7d done"
    "\x7b\"foo\":1\x7d" "See:  done" [⟨"s", "u"⟩]
    (Json.obj [("foo", Json.num 1)])
    (by rfl) (by rfl) (by rfl) (by rfl) (by rfl)

theorem buildFromParsed_referential (parsed : Json) (fallback : String)
    (cites : List Citation) (r : BudgetResponse)
    (h : buildFromParsed parsed fallback cites = Except.ok r) :
    ∀ l ∈ r.data.links,
      l.source ∈ r.data.nodes.map SankeyNode.id ∧
      l.target ∈ r.data.nodes.map SankeyNode.id := by
  unfold buildFromParsed at h
  cases hA : fieldOrEmptyArr parsed "nodes" <;> rw [hA] at h <;>
    cases hB : fieldOrEmptyArr parsed "links" <;> rw [hB] at h <;>
    cases h
  intro l hl
  obtain ⟨-, hcond⟩ := List.mem_filter.mp hl
  have hsplit := hcond
  rw [Bool.and_eq_true] at hsplit
  exact ⟨List.elem_iff.mp hsplit.1, List.elem_iff.mp hsplit.2⟩

/-- C10: every result the extractor returns already satisfies referential
integrity — each returned link's source and target are among the returned
node ids, because dangling links are filtered before the result is
returned — while self-loops (and hence cycles) may still be present at this
stage, as the concrete run in the second conjunct shows. -/
theorem fetch_output_referential :
    (∀ (decode : String → Option Json) (text : String) (cites : List Citation)
        (r : BudgetResponse),
      fetchExtract decode text cites = Except.ok r →
      ∀ l ∈ r.data.links,
        l.source ∈ r.data.nodes.map SankeyNode.id ∧
        l.target ∈ r.data.nodes.map SankeyNode.id) ∧
    (∃ r, fetchExtract jsonDecode selfLoopText [] = Except.ok r ∧
      ∃ l ∈ r.data.links, l.source = l.target) := by
  constructor
  · intro decode text cites r h
    unfold fetchExtract at h
    rcases hbm : braceMatch text with _ | ⟨m, o⟩ <;> rw [hbm] at h
    · injection h with h2
      rw [← h2]
      intro l hl
      cases hl
    · have h' : (match decode m with
          | some parsed => buildFromParsed parsed (jsTrim o) cites
          | none => Except.ok
              (⟨⟨[], []⟩, parseFailMsg ++ text, cites⟩ : BudgetResponse))
          = Except.ok r := h
      rcases hd : decode m with _ | parsed <;> rw [hd] at h'
      · injection h' with h2
        rw [← h2]
        intro l hl
        cases hl
      · exact buildFromParsed_referential parsed (jsTrim o) cites r h'
  · refine ⟨⟨⟨[⟨"a", "A"⟩], [⟨"a", "a", 1⟩]⟩, "", []⟩, by rfl,
      ⟨"a", "a", 1⟩, ?_, rfl⟩
    simp

/-- Witness for C10, applying its universal half to the concrete self-loop
run (whose link trivially has both endpoints among the returned node ids). -/
theorem fetch_output_referential_witness :
    ("a" : String) ∈ ([⟨"a", "A"⟩] : List SankeyNode).map SankeyNode.id ∧
    ("a" : String) ∈ ([⟨"a", "A"⟩] : List SankeyNode).map SankeyNode.id :=
  fetch_output_referential.1 jsonDecode selfLoopText []
    ⟨⟨[⟨"a", "A"⟩], [⟨"a", "a", 1⟩]⟩, "", []⟩ (by rfl)
    ⟨"a", "a", 1⟩ (by simp)

/-- C7: with `force` off, an existing entry short-circuits the call — the
fetcher is never invoked and the cache (hence the entry the caller reads) is
unchanged; with `force` on the fetcher is always invoked and its successful
result overwrites the entry; and in the Scenario D sequence the second call
reads the value stored by the first call's fetcher without invoking its own. -/
theorem cache_getOrFetch (cache : String → Option CachedEntry) (city : String)
    (fetcher : Except String BudgetResponse) (ts : Nat) :
    ((cache city).isSome = true →
      loadData cache city fetcher ts false = ⟨cache, none, false⟩) ∧
    ((loadData cache city fetcher ts true).invoked = true) ∧
    (∀ r, fetcher = Except.ok r →
      (loadData cache city fetcher ts true).cache city = some ⟨r, ts⟩) ∧
    (∀ (r1 : BudgetResponse) (f2 : Except String BudgetResponse) (ts2 : Nat),
      cache city = none →
      (loadData cache city (Except.ok r1) ts false).cache city = some ⟨r1, ts⟩ ∧
      (loadData (loadData cache city (Except.ok r1) ts false).cache
        city f2 ts2 false).invoked = false ∧
      (loadData (loadData cache city (Except.ok r1) ts false).cache
        city f2 ts2 false).cache city = some ⟨r1, ts⟩) := by
  refine ⟨?_, ?_, ?_, ?_⟩
  · intro h
    simp [loadData, h]
  · rcases fetcher with r | e <;> simp [loadData]
  · intro r h
    subst h
    simp [loadData]
  · intro r1 f2 ts2 h0
    have h1 : loadData cache city (Except.ok r1) ts false =
        ⟨fun k => if k = city then some ⟨r1, ts⟩ else cache k, none, true⟩ := by
      simp [loadData, h0]
    rw [h1]
    refine ⟨by simp, ?_, ?_⟩ <;> simp [loadData]

/-- Witness for C7: a concrete Scenario D run — the first call stores its
fetcher's value, and the second call (with a different fetcher outcome
available) does not invoke it and reads the stored value. -/
theorem cache_getOrFetch_witness :
    (loadData emptyCache "世田谷区" (Except.ok sampleResponse) 5 false).cache
        "世田谷区" = some ⟨sampleResponse, 5⟩ ∧
    (loadData (loadData emptyCache "世田谷区" (Except.ok sampleResponse) 5
        false).cache "世田谷区" (Except.error "f2") 6 false).invoked = false ∧
    (loadData (loadData emptyCache "世田谷区" (Except.ok sampleResponse) 5
        false).cache "世田谷区" (Except.error "f2") 6 false).cache "世田谷区"
      = some ⟨sampleResponse, 5⟩ :=
  (cache_getOrFetch emptyCache "世田谷区" (Except.ok sampleResponse) 5).2.2.2
    sampleResponse (Except.error "f2") 6 (by rfl)

/-- C8: when the fetcher fails, the cache mapping is left pointwise
unmodified — no key is inserted, overwritten or removed, so entries for all
other keys remain readable — and whenever the fetcher was actually invoked
the failure is surfaced as the error state the caller reads. -/
theorem cache_fetch_failure (cache : String → Option CachedEntry)
    (city e : String) (ts : Nat) (force : Bool) :
    (∀ k, (loadData cache city (Except.error e) ts force).cache k = cache k) ∧
    ((loadData cache city (Except.error e) ts force).invoked = true →
      (loadData cache city (Except.error e) ts force).error =
        some (loadErrorFor city e)) := by
  unfold loadData
  by_cases hc : (!force && (cache city).isSome) = true
  · rw [if_pos hc]
    exact ⟨fun k => rfl, fun h => absurd h (by simp)⟩
  · rw [if_neg hc]
    exact ⟨fun k => rfl, fun _ => rfl⟩

/-- Witness for C8 at a concrete failing fetch: the other key stays
readable and the error state carries the generic per-city message. -/
theorem cache_fetch_failure_witness :
    (loadData emptyCache "世田谷区" (Except.error "boom") 0 false).cache "港区"
        = emptyCache "港区" ∧
    (loadData emptyCache "世田谷区" (Except.error "boom") 0 false).error =
      some (loadErrorFor "世田谷区" "boom") :=
  ⟨(cache_fetch_failure emptyCache "世田谷区" "boom" 0 false).1 "港区",
   (cache_fetch_failure emptyCache "世田谷区" "boom" 0 false).2 (by rfl)⟩

theorem mapSum_mapInc (m : List (String × Int)) (name : String) (v : Int) :
    mapSum (mapInc m name v) = mapSum m + v := by
  induction m with
  | nil => simp [mapInc, mapSum]
  | cons p rest ih =>
    obtain ⟨k, w⟩ := p
    by_cases hk : k = name
    · simp [mapInc, hk, mapSum]
      ring
    · simp [mapInc, hk, mapSum] at ih ⊢
      omega

theorem foldl_aggStep_sum (nodes : List SankeyNode) :
    ∀ (links : List SankeyLink) (m : List (String × Int)),
      mapSum (links.foldl (aggStep nodes) m)
        = mapSum m +
          ((links.filter (fun l => hasRevTierId l.source)).map
            SankeyLink.value).sum := by
  intro links
  induction links with
  | nil => intro m; simp
  | cons l ls ih =>
    intro m
    rw [List.foldl_cons]
    rcases hr : hasRevTierId l.source with _ | _
    · rw [List.filter_cons]
      simp only [hr, Bool.false_eq_true, if_false]
      have ha : aggStep nodes m l = m := by
        unfold aggStep
        rw [if_neg (fun hh => Bool.false_ne_true (hr ▸ hh))]
      rw [ha, ih]
    · rw [List.filter_cons]
      simp only [hr, if_pos]
      have ha : aggStep nodes m l =
          mapInc m (sourceNameFor nodes l.source) l.value := by
        unfold aggStep
        rw [if_pos hr]
      rw [ha, ih, mapSum_mapInc]
      simp
      ring

theorem foldl_add_value (l : List CategoryEntry) :
    ∀ init : Int, l.foldl (fun s c => s + c.value) init
      = init + (l.map CategoryEntry.value).sum := by
  induction l with
  | nil => intro init; simp
  | cons c cs ih =>
    intro init
    rw [List.foldl_cons, ih]
    simp [List.map_cons]
    ring

/-- C9: per entity, the aggregation's total equals the sum of the values of
the entity's cached links whose source id carries the `rev_` prefix, and it
also equals the sum of the entity's bucket values; an entity with no cached
entry aggregates to total `0` with an empty bucket list. -/
theorem aggregation_totals (cache : String → Option CachedEntry)
    (city : String) :
    (cache city = none →
      (chartDataFor cache city).total = 0 ∧
      (chartDataFor cache city).categories = []) ∧
    (∀ entry, cache city = some entry →
      (chartDataFor cache city).total =
        ((entry.response.data.links.filter
          (fun l => hasRevTierId l.source)).map SankeyLink.value).sum ∧
      (chartDataFor cache city).total =
        ((chartDataFor cache city).categories.map CategoryEntry.value).sum) := by
  constructor
  · intro h
    simp [chartDataFor, h]
  · intro entry h
    have hred : chartDataFor cache city =
        ⟨city,
         (aggCategories entry).foldl (fun s c => s + c.value) 0,
         aggCategories entry⟩ := by
      unfold chartDataFor
      rw [h]
    rw [hred]
    have hmap : (aggCategories entry).map CategoryEntry.value =
        (entry.response.data.links.foldl
          (aggStep entry.response.data.nodes) []).map Prod.snd := by
      unfold aggCategories
      rw [List.map_map]
      rfl
    have htot : (aggCategories entry).foldl (fun s c => s + c.value) 0 =
        ((entry.response.data.links.filter
          (fun l => hasRevTierId l.source)).map SankeyLink.value).sum := by
      rw [foldl_add_value, hmap]
      have := foldl_aggStep_sum entry.response.data.nodes
        entry.response.data.links []
      unfold mapSum at this
      simp at this ⊢
      exact this
    constructor
    · exact htot
    · show (aggCategories entry).foldl (fun s c => s + c.value) 0 =
        ((aggCategories entry).map CategoryEntry.value).sum
      rw [foldl_add_value]
      simp

/-- Witness for C9: the unloaded entity aggregates to zero with no buckets,
and the loaded entity's total matches both sums, at concrete inputs. -/
theorem aggregation_totals_witness :
    ((chartDataFor sampleCache "港区").total = 0 ∧
      (chartDataFor sampleCache "港区").categories = []) ∧
    ((chartDataFor sampleCache "世田谷区").total =
        ((sampleEntry.response.data.links.filter
          (fun l => hasRevTierId l.source)).map SankeyLink.value).sum ∧
      (chartDataFor sampleCache "世田谷区").total =
        ((chartDataFor sampleCache "世田谷区").categories.map
          CategoryEntry.value).sum) :=
  ⟨(aggregation_totals sampleCache "港区").1 (by decide),
   (aggregation_totals sampleCache "世田谷区").2 sampleEntry (by decide)⟩

end BudgetViz

